import Mathlib

/-!
Verification development for the archive-to-history matching engine of
`find-archive-matches.py` (repository `lineage-scripts`).

The script compares files of a filesystem snapshot (the "archive") against a
git working tree and its per-path commit history.  The embedding below
translates the relevant parts of the script:

* `scanCommits` — the `for counter, commit in enumerate(file_commits, start=1)`
  loop of `compare_files` (source lines 123-156): per-revision blob lookup
  (a bare `except: continue` models a missing path as `blob = none`), digest
  comparison with `break` on the first hit, the inline update of the global
  `first_match_commit`, and in diff mode the decode / unified-diff /
  minimum-tracking branch.  The decode of a historical blob
  (`git_txt.decode()`, line 145) is NOT guarded in the source, so a failure
  there is an uncaught exception, modelled as `Crash.gitDecode`.
* `processFile` — the per-file body of the archive loop (lines 95-175):
  the `is_file` / `.git` / repository-copy checks, the archive-side decode
  with its `break` on `UnicodeDecodeError` (lines 106-111), the HEAD digest
  short-circuit (line 113), the history scan, and the two report branches
  (lines 158-175) including the unconditional `min_diff_commit.hexsha`
  access under diff mode (modelled as `Crash.noneHexsha`) and the
  `first_min_diff_commit` ancestry update.
* `compareLoop` — the outer `for` over sorted archive files; a `break` from
  the per-file body ends the loop without an exception.
* `findMissingFiles` — the file branch of `find_missing_items` (lines 56-69).
* `rootGo` / `findArchiveRoot` — the archive-root search of `main`
  (lines 233-238); paths are modelled as component lists below a filesystem
  root, so `parent` is `dropLast`, the root is `[]` (its own parent), and
  joining a relative path is list append.  `rootGo` carries a fuel argument
  so the while-loop stays a structural recursion; the fuel
  `archivePath.length + 1` used by `findArchiveRoot` can never run out
  because each step shortens the path and the loop stops at `[]`.
* `mainFull` — the exit-state skeleton of `main` (lines 220-254): the two
  early `return`s (which leave the process with a SUCCESSFUL exit status),
  the uncaught `RuntimeError` of the archive-root search, and an uncaught
  exception escaping `compare_files`.

Abstracted collaborators are passed in a `Ctx`: the SHA-256 digest
(`sha`, compared only for equality, exactly as the script compares
hexdigests), UTF-8 decoding to a line list (`decode`, `none` =
`UnicodeDecodeError`), the rendered unified-diff line count (`diffLen`),
and the git ancestry test on commit ids (`anc`, `repo.is_ancestor`).
The `compared` field of `ScanOut` is pure instrumentation with no source
counterpart: it records, in scan order, the ids of the commits whose blob
digest was actually compared against the archive digest.
-/

/-- File contents: a byte string, one `Nat` per byte. -/
abbrev Bytes := List Nat

/-- One entry of `repo.iter_commits(paths=...)`: a commit id together with the
content of the scanned path in that commit (`none` models the bare
`except: continue` of source lines 124-130, i.e. the path is absent). -/
structure Commit where
  id : Nat
  blob : Option Bytes
  deriving DecidableEq, Repr

/-- Abstracted collaborators of `compare_files` (digest, text decoding,
unified-diff line count, git ancestry) plus the `--diff` flag. -/
structure Ctx where
  sha : Bytes → Nat
  decode : Bytes → Option (List String)
  diffLen : List String → List String → Nat
  anc : Nat → Nat → Bool
  useDiff : Bool

/-- Uncaught Python exceptions of `compare_files`:
`gitDecode` is the unguarded `git_txt.decode()` of line 145 raising
`UnicodeDecodeError`; `noneHexsha` is the `min_diff_commit.hexsha` access of
line 166 when `min_diff_commit is None` (an `AttributeError`);
`isAncestorNone` is `repo.is_ancestor(first_min_diff_commit, None)` at
line 172. -/
inductive Crash where
  | gitDecode
  | noneHexsha
  | isAncestorNone
  deriving DecidableEq, Repr

/-- Decidable equality on `Except`, used to evaluate the model at concrete
inputs. -/
instance {ε α : Type} [DecidableEq ε] [DecidableEq α] : DecidableEq (Except ε α) := fun a b =>
  match a, b with
  | .error e, .error e₂ =>
    if h : e = e₂ then isTrue (by rw [h]) else isFalse (by intro hc; cases hc; exact h rfl)
  | .ok v, .ok v₂ =>
    if h : v = v₂ then isTrue (by rw [h]) else isFalse (by intro hc; cases hc; exact h rfl)
  | .error _, .ok _ => isFalse (by intro hc; cases hc)
  | .ok _, .error _ => isFalse (by intro hc; cases hc)

/-- The inline fold step shared by lines 138-141 and 172-175 of the source:
`if current is None or repo.is_ancestor(current, c): current = c`. -/
def ancStep (anc : Nat → Nat → Bool) (cur : Option Nat) (c : Nat) : Option Nat :=
  match cur with
  | none => some c
  | some p => if anc p c then some c else some p

/-- The whole-run ancestry reduction: the `ancStep` fold over the revisions
collected during one run, starting from `None`. -/
def ancReduce (anc : Nat → Nat → Bool) (l : List Nat) : Option Nat :=
  l.foldl (ancStep anc) none

/-- Result of the history scan for one file.  `matching` is
`(matching_commit, counter)` at the `break` (the `enumerate` counter starts
at 1 and also counts skipped revisions); `firstMatch` is the updated
`first_match_commit`; `minDiff` is `(min_diff_commit, min_diff_length)`;
`compared` instruments which commit ids had their digest compared. -/
structure ScanOut where
  matching : Option (Commit × Nat)
  firstMatch : Option Nat
  minDiff : Option (Commit × Nat)
  compared : List Nat
  deriving DecidableEq, Repr

/-- The revision loop of `compare_files` (source lines 123-156), newest
revision first.  Arguments after the revision list: the current `enumerate`
counter, the current `first_match_commit`, and the current
`(min_diff_commit, min_diff_length)` pair. -/
def scanCommits (κ : Ctx) (aSha : Nat) (aLines : List String) :
    List Commit → Nat → Option Nat → Option (Commit × Nat) → Except Crash ScanOut
  | [], _, fm, md => .ok ⟨none, fm, md, []⟩
  | c :: rest, counter, fm, md =>
    match c.blob with
    | none => scanCommits κ aSha aLines rest (counter + 1) fm md
    | some gitTxt =>
      if aSha = κ.sha gitTxt then
        .ok ⟨some (c, counter), ancStep κ.anc fm c.id, md, [c.id]⟩
      else if κ.useDiff then
        match κ.decode gitTxt with
        | none => .error .gitDecode
        | some gitLines =>
          let d := κ.diffLen gitLines aLines
          let md' := match md with
            | none => some (c, d)
            | some (c₀, m₀) => if m₀ > d then some (c, d) else some (c₀, m₀)
          (scanCommits κ aSha aLines rest (counter + 1) fm md').map
            (fun o => { o with compared := c.id :: o.compared })
      else
        (scanCommits κ aSha aLines rest (counter + 1) fm md).map
          (fun o => { o with compared := c.id :: o.compared })

/-- One archive file as seen by the two loops of the script: its path
relative to the archive root, the `is_file` / `.git`-component flags, the
existence and file-ness of the same-path repository copy, the archive bytes,
the repository working-copy bytes, and the `iter_commits` history. -/
structure AFile where
  rel : List String
  isFile : Bool
  gitRelated : Bool
  gitExists : Bool
  gitIsFile : Bool
  bytes : Bytes
  headBytes : Bytes
  commits : List Commit
  deriving DecidableEq, Repr

/-- Console/report events of the comparison loop. `olderFile` is the plain
print of lines 159-161 (commit id and the 1-based counter);
`differingNoMatch` is the `print_result` of lines 163-170, with the
closest-commit suffix present exactly when `useDiff`; `decodeError` is the
line-110 message printed before the `break`. -/
inductive Emitted where
  | olderFile (rel : List String) (commitId : Nat) (counter : Nat)
  | differingNoMatch (rel : List String) (closest : Option (Nat × Nat))
  | decodeError (rel : List String)
  deriving DecidableEq, Repr

/-- State threaded through the comparison loop: the two global fold
accumulators, the `FilesWithoutMatch` bucket, an instrumentation list of the
paths for which `repo.iter_commits` was invoked, and the emitted events. -/
structure RunState where
  firstMatch : Option Nat
  firstMinDiff : Option Nat
  withoutMatch : List (List String)
  histQueries : List (List String)
  emitted : List Emitted
  deriving DecidableEq, Repr

/-- The initial run state (all accumulators empty, both fold seeds `None`). -/
def RunState.init : RunState := ⟨none, none, [], [], []⟩

/-- The per-file body of the comparison loop (source lines 95-175).
Returns the updated state and `true` to continue the loop, `false` for the
`break` of line 111; uncaught exceptions are `.error`. -/
def processFile (κ : Ctx) (st : RunState) (f : AFile) : Except Crash (RunState × Bool) :=
  if f.isFile = false then .ok (st, true)
  else if f.gitRelated then .ok (st, true)
  else if f.gitExists && f.gitIsFile then
    let aSha := κ.sha f.bytes
    if κ.useDiff && (κ.decode f.bytes).isNone then
      .ok ({ st with emitted := st.emitted ++ [.decodeError f.rel] }, false)
    else
      let aLines := (κ.decode f.bytes).getD []
      if aSha = κ.sha f.headBytes then .ok (st, true)
      else
        let st := { st with histQueries := st.histQueries ++ [f.rel] }
        match scanCommits κ aSha aLines f.commits 1 st.firstMatch none with
        | .error e => .error e
        | .ok out =>
          let st := { st with firstMatch := out.firstMatch }
          match out.matching with
          | some (c, counter) =>
            .ok ({ st with emitted := st.emitted ++ [.olderFile f.rel c.id counter] }, true)
          | none =>
            if κ.useDiff && out.minDiff.isNone then .error .noneHexsha
            else
              let closest : Option (Nat × Nat) :=
                if κ.useDiff then out.minDiff.map (fun p => (p.1.id, p.2)) else none
              let st := { st with
                emitted := st.emitted ++ [Emitted.differingNoMatch f.rel closest],
                withoutMatch := st.withoutMatch ++ [f.rel] }
              match st.firstMinDiff, out.minDiff with
              | none, md =>
                Except.ok ({ st with firstMinDiff := md.map (fun (p : Commit × Nat) => p.1.id) }, true)
              | some p, some m =>
                if κ.anc p m.1.id then Except.ok ({ st with firstMinDiff := some m.1.id }, true)
                else Except.ok (st, true)
              | some _, none => Except.error .isAncestorNone
  else .ok (st, true)

/-- The outer `for` of `compare_files` over the sorted archive file list.
A `false` continuation flag (the line-111 `break`) ends the loop normally. -/
def compareLoop (κ : Ctx) (st : RunState) : List AFile → Except Crash RunState
  | [] => .ok st
  | f :: rest =>
    match processFile κ st f with
    | .error e => .error e
    | .ok (st', cont) => if cont then compareLoop κ st' rest else .ok st'

/-- The file branch of `find_missing_items` (source lines 56-69): relative
paths of archive files without an existing same-path repository entry. -/
def findMissingFiles (files : List AFile) : List (List String) :=
  (files.filter (fun f => f.isFile && !f.gitRelated && !f.gitExists)).map (fun f => f.rel)

/-- The archive-root while-loop of `main` (source lines 234-236), with fuel
making the descent structural: ascend from `p` until `p ++ S = archivePath`
or the filesystem root `[]` is reached. -/
def rootGo (ap S : List String) : Nat → List String → List String
  | 0, p => p
  | fuel + 1, p =>
    if p ++ S = ap then p
    else if p = [] then p
    else rootGo ap S fuel p.dropLast

/-- Lines 234-238 of `main`: run the ascent from the archive path itself and
re-check the loop condition; a failing re-check is the
`raise RuntimeError("Error finding archive root, cancelling")`. -/
def findArchiveRoot (ap S : List String) : Except Unit (List String) :=
  let r := rootGo ap S (ap.length + 1) ap
  if r ++ S = ap then .ok r else .error ()

/-- The ancestor-or-self chain of a path, deepest first: exactly the paths
visited by the `archive_root = archive_root.parent` ascent (the path itself,
then each `dropLast`, down to the filesystem root `[]`). -/
def ancChain (p : List String) : List (List String) :=
  (List.range (p.length + 1)).map (fun k => p.take (p.length - k))

/-- Process exit status: `failure` is an uncaught exception (non-zero exit),
`success` is a normal return from `main` (exit code 0). -/
inductive ExitState where
  | success
  | failure
  deriving DecidableEq, Repr

/-- Outcome of one `main` invocation: the exit status, and the completed
report (missing files plus the final comparison state) when the run got
that far. -/
structure MainResult where
  exit : ExitState
  report : Option (List (List String) × RunState)
  deriving DecidableEq, Repr

/-- The exit-state skeleton of `main` (source lines 220-254).  The two
error paths at lines 225-227 and 244-246 `print` and `return`, so the
process still exits successfully; the archive-root `RuntimeError` (line 238)
and any exception escaping `compare_files` are uncaught and fail the
process before a report exists. -/
def mainFull (κ : Ctx) (archiveIsDir gitRootFound : Bool)
    (ap S : List String) (files : List AFile) : MainResult :=
  if archiveIsDir = false then ⟨.success, none⟩
  else if gitRootFound = false then ⟨.success, none⟩
  else
    match findArchiveRoot ap S with
    | .error _ => ⟨.failure, none⟩
    | .ok _ =>
      match compareLoop κ RunState.init files with
      | .error _ => ⟨.failure, none⟩
      | .ok st => ⟨.success, some (findMissingFiles files, st)⟩

/-- A concrete digest for witnesses: an injective fold of the byte list. -/
def shaDemo (bs : Bytes) : Nat := bs.foldl (fun a b => a * 256 + b + 1) 7

/-- A concrete decoder for witnesses: bytes below 128 decode to one-character
lines, any byte at or above 128 makes the buffer undecodable. -/
def asciiDecode (bs : Bytes) : Option (List String) :=
  if bs.all (fun b => b < 128) then some (bs.map (fun b => String.mk [Char.ofNat b])) else none


/-- A concrete ancestry relation for witnesses: numeric less-or-equal, a
partial (indeed total) order on commit ids. -/
def ancLe : Nat → Nat → Bool := fun a b => decide (a ≤ b)

/-- A concrete diff-length for witnesses: total line count of both sides. -/
def diffDemo : List String → List String → Nat := fun old new => old.length + new.length

/-- Concrete collaborator bundle with `--diff` enabled. -/
def ctxDiff : Ctx := ⟨shaDemo, asciiDecode, diffDemo, ancLe, true⟩

/-- Concrete collaborator bundle with `--diff` disabled. -/
def ctxNoDiff : Ctx := ⟨shaDemo, asciiDecode, diffDemo, ancLe, false⟩

/-- An undecodable archive file (byte 200) whose repository copy differs. -/
def binFile : AFile := ⟨["a.bin"], true, false, true, true, [200], [1], []⟩

/-- A decodable archive file that differs from its repository copy and from
its single historical revision, so in diff mode it is classified as a
differing file with closest commit 1. -/
def txtFile : AFile := ⟨["b.txt"], true, false, true, true, [2], [3], [⟨1, some [9]⟩]⟩

/-- The commit ids whose blob digest the revision loop compares when it
walks a segment without breaking: exactly the entries whose path is present. -/
def comparedOf (l : List Commit) : List Nat :=
  (l.filter (fun c => c.blob.isSome)).map (fun c => c.id)

/-- A revision the scan passes over without a hit: either the path is absent
there (the bare-except skip), or the blob is present with a differing digest
and, when diff mode is on, it decodes so the loop can proceed. -/
def NonHit (κ : Ctx) (aSha : Nat) (c : Commit) : Prop :=
  c.blob = none ∨
    (c.blob.isSome ∧ ¬(aSha = κ.sha (c.blob.getD [])) ∧
      (κ.useDiff = true → (κ.decode (c.blob.getD [])).isSome))

/-- The side conditions of `NonHit` are all decidable, so witnesses can be
checked by evaluation. -/
instance (κ : Ctx) (aSha : Nat) (c : Commit) : Decidable (NonHit κ aSha c) := by
  unfold NonHit
  infer_instance

/-- Walking any block of revisions whose path is absent leaves everything
unchanged except the enumerate counter, which still advances. -/
theorem scanCommits_skip_absent (κ : Ctx) (aSha : Nat) (aLines : List String)
    (pre : List Commit) (h : ∀ c ∈ pre, c.blob = none) (rest : List Commit) :
    ∀ (counter : Nat) (fm : Option Nat) (md : Option (Commit × Nat)),
      scanCommits κ aSha aLines (pre ++ rest) counter fm md =
        scanCommits κ aSha aLines rest (counter + pre.length) fm md := by
  induction pre with
  | nil => intro counter fm md; simp
  | cons c pre ih =>
    intro counter fm md
    have hc : c.blob = none := h c (by simp)
    have harith : counter + 1 + pre.length = counter + (pre.length + 1) := by omega
    simp only [List.cons_append, scanCommits, hc, List.append_eq]
    rw [ih (fun x hx => h x (by simp [hx])) (counter + 1) fm md, harith]
    simp [List.length_cons]

/-- If every revision strictly before position `pre.length` is a `NonHit` and
the revision there carries a blob with the archive digest, the scan breaks
exactly there: the matching commit is returned with counter
`counter + pre.length`, `first_match_commit` is updated through `ancStep`,
and the digests compared are those of the present-blob prefix plus the hit.
The suffix `rest` does not appear in the result at all. -/
theorem scanCommits_first_hit (κ : Ctx) (aSha : Nat) (aLines : List String)
    (pre : List Commit) (c : Commit) (b : Bytes) (rest : List Commit)
    (hpre : ∀ x ∈ pre, NonHit κ aSha x) (hb : c.blob = some b) (hsha : aSha = κ.sha b) :
    ∀ (counter : Nat) (fm : Option Nat) (md : Option (Commit × Nat)),
      ∃ md', scanCommits κ aSha aLines (pre ++ c :: rest) counter fm md =
        .ok ⟨some (c, counter + pre.length), ancStep κ.anc fm c.id, md',
          comparedOf pre ++ [c.id]⟩ := by
  induction pre with
  | nil =>
    intro counter fm md
    refine ⟨md, ?_⟩
    simp [scanCommits, hb, ← hsha, comparedOf]
  | cons x pre ih =>
    intro counter fm md
    have hx := hpre x (by simp)
    have hpre' : ∀ y ∈ pre, NonHit κ aSha y := fun y hy => hpre y (by simp [hy])
    have harith : counter + 1 + pre.length = counter + (pre.length + 1) := by omega
    rcases hx with hnone | ⟨hsome, hne, hdec⟩
    · obtain ⟨md', hmd⟩ := ih hpre' (counter + 1) fm md
      refine ⟨md', ?_⟩
      simp only [List.cons_append, scanCommits, hnone, List.append_eq]
      rw [hmd, harith]
      simp [comparedOf, hnone, List.length_cons]
    · obtain ⟨b', hb'⟩ := Option.isSome_iff_exists.mp hsome
      rw [hb'] at hne hdec
      simp only [Option.getD_some] at hne hdec
      simp only [List.cons_append, scanCommits, hb', if_neg hne, List.append_eq]
      cases hud : κ.useDiff with
      | false =>
        obtain ⟨md', hmd⟩ := ih hpre' (counter + 1) fm md
        refine ⟨md', ?_⟩
        rw [if_neg (by simp [hud]), hmd, harith]
        simp [Except.map, comparedOf, hb', List.length_cons]
      | true =>
        obtain ⟨lines, hlines⟩ := Option.isSome_iff_exists.mp (hdec hud)
        rw [if_pos (by simp [hud]), hlines]
        dsimp only
        generalize (match md with
          | none => some (x, κ.diffLen lines aLines)
          | some (c₀, m₀) =>
            if m₀ > κ.diffLen lines aLines then some (x, κ.diffLen lines aLines)
            else some (c₀, m₀)) = md₂
        obtain ⟨md', hmd⟩ := ih hpre' (counter + 1) fm md₂
        refine ⟨md', ?_⟩
        rw [hmd, harith]
        simp [Except.map, comparedOf, hb', List.length_cons]

/-- Once the scan hits a matching revision, the remaining (older) part of the
revision list is irrelevant: scanning `pre ++ c :: rest` equals scanning
`pre ++ [c]`, i.e. the loop halts at the first hit. -/
theorem scanCommits_stop (κ : Ctx) (aSha : Nat) (aLines : List String)
    (pre : List Commit) (c : Commit) (b : Bytes) (rest : List Commit)
    (hpre : ∀ x ∈ pre, NonHit κ aSha x) (hb : c.blob = some b) (hsha : aSha = κ.sha b) :
    ∀ (counter : Nat) (fm : Option Nat) (md : Option (Commit × Nat)),
      scanCommits κ aSha aLines (pre ++ c :: rest) counter fm md =
        scanCommits κ aSha aLines (pre ++ [c]) counter fm md := by
  induction pre with
  | nil =>
    intro counter fm md
    simp [scanCommits, hb, ← hsha]
  | cons x pre ih =>
    intro counter fm md
    have hpre' : ∀ y ∈ pre, NonHit κ aSha y := fun y hy => hpre y (by simp [hy])
    rcases hpre x (by simp) with hnone | ⟨hsome, hne, hdec⟩
    · simp only [List.cons_append, scanCommits, hnone, List.append_eq]
      exact ih hpre' (counter + 1) fm md
    · obtain ⟨b', hb'⟩ := Option.isSome_iff_exists.mp hsome
      rw [hb'] at hne hdec
      simp only [Option.getD_some] at hne hdec
      simp only [List.cons_append, scanCommits, hb', if_neg hne, List.append_eq]
      cases hud : κ.useDiff with
      | false =>
        simp only [hud, Bool.false_eq_true, if_false]
        rw [ih hpre' (counter + 1) fm md]
      | true =>
        obtain ⟨lines, hlines⟩ := Option.isSome_iff_exists.mp (hdec hud)
        simp only [hud, if_true, hlines]
        generalize (match md with
          | none => some (x, κ.diffLen lines aLines)
          | some (c₀, m₀) =>
            if m₀ > κ.diffLen lines aLines then some (x, κ.diffLen lines aLines)
            else some (c₀, m₀)) = md₂
        rw [ih hpre' (counter + 1) fm md₂]

/-- C5: a `readBlob` failure (`PathNotInRevision`, the bare-except skip of
lines 124-130) on the newest revisions never aborts the resolver for the
file: the scan over `pre ++ rest`, where every revision of `pre` lacks the
path, equals the scan over the older revisions `rest` alone (with the
enumerate counter advanced across the skipped block), so a match or
minimum-diff revision found among the older revisions is still reported. -/
theorem C5_absent_path_skipped_not_fatal (κ : Ctx) (aSha : Nat) (aLines : List String)
    (pre rest : List Commit) (hpre : ∀ c ∈ pre, c.blob = none)
    (counter : Nat) (fm : Option Nat) (md : Option (Commit × Nat)) :
    scanCommits κ aSha aLines (pre ++ rest) counter fm md =
      scanCommits κ aSha aLines rest (counter + pre.length) fm md :=
  scanCommits_skip_absent κ aSha aLines pre hpre rest counter fm md

/-- Witness for C5: one absent-path revision is skipped, the counter
advances, and the match among the older revisions is still found. -/
theorem C5_absent_path_skipped_not_fatal_witness :
    (∀ c ∈ [(⟨5, none⟩ : Commit)], c.blob = none) ∧
      scanCommits ctxDiff (shaDemo [2]) [] ([⟨5, none⟩] ++ [⟨4, some [2]⟩]) 1 none none =
        scanCommits ctxDiff (shaDemo [2]) [] [⟨4, some [2]⟩] (1 + 1) none none :=
  ⟨by decide,
   C5_absent_path_skipped_not_fatal ctxDiff (shaDemo [2]) [] [⟨5, none⟩] [⟨4, some [2]⟩]
     (by decide) 1 none none⟩

/-- C2 counterexample: at the claim's own scenario — archive content equal to
the newest revision R3 of the newest-first history [R3, R2, R1] — the loop
reports the enumerate counter 1 (`enumerate(..., start=1)`), not the claimed
0-based ordinal 0. -/
theorem C2_counterexample :
    scanCommits ctxNoDiff (shaDemo [118, 50, 10]) []
        [⟨3, some [118, 50, 10]⟩, ⟨2, some [118, 49, 10]⟩, ⟨1, some [118, 48, 10]⟩]
        1 none none =
      .ok ⟨some (⟨3, some [118, 50, 10]⟩, 1), some 3, none, [3]⟩ ∧ (1 : Nat) ≠ 0 := by
  decide

/-- C2 amended: the distance reported with a historical match is the 1-based
enumerate counter of the matching revision in the newest-first list (skipped
revisions included), i.e. 0-based index plus one; in diff mode this presumes
the newer non-matching blobs decode (otherwise the scan aborts, see C1/C3).
At the scenario [R3, R2, R1] with the archive equal to R3 the result is
(R3, 1). -/
theorem C2_match_distance_is_one_based (κ : Ctx) (aSha : Nat) (aLines : List String)
    (pre : List Commit) (c : Commit) (b : Bytes) (rest : List Commit)
    (hpre : ∀ x ∈ pre, NonHit κ aSha x) (hb : c.blob = some b) (hsha : aSha = κ.sha b)
    (fm : Option Nat) :
    ∃ out, scanCommits κ aSha aLines (pre ++ c :: rest) 1 fm none = .ok out ∧
      out.matching = some (c, pre.length + 1) := by
  obtain ⟨md', h⟩ := scanCommits_first_hit κ aSha aLines pre c b rest hpre hb hsha 1 fm none
  exact ⟨_, h, by simp [Nat.add_comm]⟩

/-- Witness for C2 amended: the scenario itself, newest revision matching,
distance 1 = 0 + 1. -/
theorem C2_match_distance_is_one_based_witness :
    ∃ out, scanCommits ctxNoDiff (shaDemo [118, 50, 10]) []
        ([] ++ (⟨3, some [118, 50, 10]⟩ : Commit) ::
          [⟨2, some [118, 49, 10]⟩, ⟨1, some [118, 48, 10]⟩]) 1 none none = .ok out ∧
      out.matching = some (⟨3, some [118, 50, 10]⟩, List.length ([] : List Commit) + 1) :=
  C2_match_distance_is_one_based ctxNoDiff (shaDemo [118, 50, 10]) [] []
    ⟨3, some [118, 50, 10]⟩ [118, 50, 10] [⟨2, some [118, 49, 10]⟩, ⟨1, some [118, 48, 10]⟩]
    (by decide) rfl (by decide) none

/-- C3 counterexample: the archive digest matches the revisions at 0-based
positions 1 and 2, diff mode is on, and the newer non-matching revision at
position 0 has an undecodable blob — the unguarded `git_txt.decode()` of
line 145 aborts the scan with an uncaught error, so nothing is recorded,
contradicting the claim that the position-1 revision is recorded. -/
theorem C3_counterexample :
    scanCommits ctxDiff (shaDemo [2]) []
        [⟨9, some [200]⟩, ⟨8, some [2]⟩, ⟨7, some [2]⟩] 1 none none = .error .gitDecode := by
  decide

/-- C3 amended: when the digest matches two or more revisions and, in diff
mode, every newer non-matching blob decodes, the resolver records the match
with the smaller ordinal (the first hit of the newest-first walk), halts the
scan there — the older tail of the list does not influence the result — and
compares digests only against the present-blob revisions up to and
including the hit. -/
theorem C3_first_hit_halts_scan (κ : Ctx) (aSha : Nat) (aLines : List String)
    (pre : List Commit) (c : Commit) (b : Bytes) (rest : List Commit)
    (hpre : ∀ x ∈ pre, NonHit κ aSha x) (hb : c.blob = some b) (hsha : aSha = κ.sha b)
    (_hsecond : ∃ c₂ ∈ rest, ∃ b₂, c₂.blob = some b₂ ∧ aSha = κ.sha b₂)
    (counter : Nat) (fm : Option Nat) (md : Option (Commit × Nat)) :
    (∃ md', scanCommits κ aSha aLines (pre ++ c :: rest) counter fm md =
        .ok ⟨some (c, counter + pre.length), ancStep κ.anc fm c.id, md',
          comparedOf pre ++ [c.id]⟩) ∧
      scanCommits κ aSha aLines (pre ++ c :: rest) counter fm md =
        scanCommits κ aSha aLines (pre ++ [c]) counter fm md :=
  ⟨scanCommits_first_hit κ aSha aLines pre c b rest hpre hb hsha counter fm md,
   scanCommits_stop κ aSha aLines pre c b rest hpre hb hsha counter fm md⟩

/-- Witness for C3 amended: a decodable non-matching newest revision, a hit
at position 1, and a second matching revision at position 2. -/
theorem C3_first_hit_halts_scan_witness :
    (∃ md', scanCommits ctxDiff (shaDemo [2]) []
        ([⟨9, some [5]⟩] ++ (⟨8, some [2]⟩ : Commit) :: [⟨7, some [2]⟩]) 1 none none =
        .ok ⟨some (⟨8, some [2]⟩, 1 + List.length [(⟨9, some [5]⟩ : Commit)]),
          ancStep ctxDiff.anc none 8, md',
          comparedOf [⟨9, some [5]⟩] ++ [8]⟩) ∧
      scanCommits ctxDiff (shaDemo [2]) []
          ([⟨9, some [5]⟩] ++ (⟨8, some [2]⟩ : Commit) :: [⟨7, some [2]⟩]) 1 none none =
        scanCommits ctxDiff (shaDemo [2]) [] ([⟨9, some [5]⟩] ++ [⟨8, some [2]⟩]) 1 none none :=
  C3_first_hit_halts_scan ctxDiff (shaDemo [2]) [] [⟨9, some [5]⟩] ⟨8, some [2]⟩ [2]
    [⟨7, some [2]⟩] (by decide) rfl (by decide)
    ⟨⟨7, some [2]⟩, by decide, [2], rfl, by decide⟩ 1 none none

/-- `ancStep` on a present candidate keeps it or replaces it, depending on
the ancestry test. -/
theorem ancStep_some (anc : Nat → Nat → Bool) (p c : Nat) :
    ancStep anc (some p) c = some (if anc p c then c else p) := by
  by_cases h : anc p c <;> simp [ancStep, h]

/-- The `ancStep` fold from a present candidate always ends on a present
candidate. -/
theorem ancFold_some (anc : Nat → Nat → Bool) (l : List Nat) :
    ∀ cur : Nat, ∃ r, List.foldl (ancStep anc) (some cur) l = some r := by
  induction l with
  | nil => intro cur; exact ⟨cur, rfl⟩
  | cons x l ih =>
    intro cur
    rw [List.foldl_cons, ancStep_some]
    exact ih (if anc cur x then x else cur)

/-- The fold result is reachable from the seed through the ancestry
relation (reflexive-transitive reasoning on the kept candidates). -/
theorem ancFold_reaches (anc : Nat → Nat → Bool) (hrefl : ∀ a, anc a a = true)
    (htrans : ∀ a b c, anc a b = true → anc b c = true → anc a c = true)
    (l : List Nat) :
    ∀ cur r : Nat, List.foldl (ancStep anc) (some cur) l = some r → anc cur r = true := by
  induction l with
  | nil =>
    intro cur r h
    simp only [List.foldl_nil, Option.some.injEq] at h
    rw [h]; exact hrefl r
  | cons x l ih =>
    intro cur r h
    rw [List.foldl_cons, ancStep_some] at h
    by_cases hx : anc cur x
    · rw [if_pos hx] at h
      exact htrans cur x r hx (ih x r h)
    · rw [if_neg hx] at h
      exact ih cur r h

/-- The fold result is the seed or a member of the folded list. -/
theorem ancFold_mem (anc : Nat → Nat → Bool) (l : List Nat) :
    ∀ cur r : Nat, List.foldl (ancStep anc) (some cur) l = some r → r = cur ∨ r ∈ l := by
  induction l with
  | nil =>
    intro cur r h
    simp only [List.foldl_nil, Option.some.injEq] at h
    exact Or.inl h.symm
  | cons x l ih =>
    intro cur r h
    rw [List.foldl_cons, ancStep_some] at h
    by_cases hx : anc cur x
    · rw [if_pos hx] at h
      rcases ih x r h with h1 | h1
      · exact Or.inr (by simp [h1])
      · exact Or.inr (by simp [h1])
    · rw [if_neg hx] at h
      rcases ih cur r h with h1 | h1
      · exact Or.inl h1
      · exact Or.inr (by simp [h1])

/-- Maximality of the fold result: when the ancestry relation is a partial
order, no element seen by the fold is a proper descendant of the result. -/
theorem ancFold_max (anc : Nat → Nat → Bool) (hrefl : ∀ a, anc a a = true)
    (htrans : ∀ a b c, anc a b = true → anc b c = true → anc a c = true)
    (hanti : ∀ a b, anc a b = true → anc b a = true → a = b)
    (l : List Nat) :
    ∀ cur r d : Nat, List.foldl (ancStep anc) (some cur) l = some r →
      (d = cur ∨ d ∈ l) → anc r d = true → d = r := by
  induction l with
  | nil =>
    intro cur r d h hd _
    simp only [List.foldl_nil, Option.some.injEq] at h
    rcases hd with h1 | h1
    · rw [h1, h]
    · simp at h1
  | cons x l ih =>
    intro cur r d h hd hrd
    rw [List.foldl_cons, ancStep_some] at h
    by_cases hx : anc cur x
    · rw [if_pos hx] at h
      rcases hd with h1 | h1
      · -- d is the rejected old candidate cur, replaced by x
        subst h1
        have hxr : anc x r = true := ancFold_reaches anc hrefl htrans l x r h
        have hxd : anc x d = true := htrans x r d hxr hrd
        have hdx : d = x := hanti d x hx hxd
        exact ih x r d h (Or.inl hdx) hrd
      · rcases List.mem_cons.mp h1 with h2 | h2
        · exact ih x r d h (Or.inl h2) hrd
        · exact ih x r d h (Or.inr h2) hrd
    · rw [if_neg hx] at h
      rcases hd with h1 | h1
      · exact ih cur r d h (Or.inl h1) hrd
      · rcases List.mem_cons.mp h1 with h2 | h2
        · -- d = x was rejected because cur does not reach it; contradiction
          subst h2
          have hcr : anc cur r = true := ancFold_reaches anc hrefl htrans l cur r h
          exact absurd (htrans cur r d hcr hrd) hx
        · exact ih cur r d h (Or.inr h2) hrd

/-- C6: over any non-empty collection of revisions gathered in one run, the
ancestry reduction (the `ancStep` fold of lines 138-141 / 172-175, seeded
with `None`) returns a member of the collection of which no other member is
a proper descendant — a maximal element under `isAncestor` — provided
`isAncestor` is reflexive, transitive and antisymmetric (a partial order, as
git ancestry is); and over a single-element collection the reduction returns
that element unchanged.  The same fold is used both for the
`MatchedHistorical` revisions (`first_match_commit`) and for the
`ClosestHistorical` revisions (`first_min_diff_commit`). -/
theorem C6_ancestry_reduction_maximal (anc : Nat → Nat → Bool)
    (hrefl : ∀ a, anc a a = true)
    (htrans : ∀ a b c, anc a b = true → anc b c = true → anc a c = true)
    (hanti : ∀ a b, anc a b = true → anc b a = true → a = b)
    (l : List Nat) (hne : l ≠ []) :
    (∃ r, ancReduce anc l = some r ∧ r ∈ l ∧ ∀ d ∈ l, anc r d = true → d = r) ∧
      (∀ x : Nat, ancReduce anc [x] = some x) := by
  refine ⟨?_, fun x => rfl⟩
  cases l with
  | nil => exact absurd rfl hne
  | cons x t =>
    have hred : ancReduce anc (x :: t) = List.foldl (ancStep anc) (some x) t := by
      simp [ancReduce, ancStep]
    obtain ⟨r, hr⟩ := ancFold_some anc t x
    refine ⟨r, by rw [hred, hr], ?_, ?_⟩
    · rcases ancFold_mem anc t x r hr with h | h
      · simp [h]
      · simp [h]
    · intro d hd hrd
      have hd' : d = x ∨ d ∈ t := List.mem_cons.mp hd
      exact ancFold_max anc hrefl htrans hanti t x r d hr hd' hrd

/-- Witness for C6: numeric less-or-equal ancestry over the collection
[2, 5, 3]; the reduction returns a maximal element, and singleton reduction
is the identity. -/
theorem C6_ancestry_reduction_maximal_witness :
    (∃ r, ancReduce ancLe [2, 5, 3] = some r ∧ r ∈ [2, 5, 3] ∧
        ∀ d ∈ [2, 5, 3], ancLe r d = true → d = r) ∧
      (∀ x : Nat, ancReduce ancLe [x] = some x) :=
  C6_ancestry_reduction_maximal ancLe
    (fun a => by simp [ancLe])
    (fun a b c h1 h2 => by
      simp only [ancLe, decide_eq_true_eq] at h1 h2 ⊢
      omega)
    (fun a b h1 h2 => by
      simp only [ancLe, decide_eq_true_eq] at h1 h2
      omega)
    [2, 5, 3] (by decide)

/-- Diff line count of a revision against the archive lines (total function;
meaningful when the blob is present and decodes, which the hypotheses of the
lemmas below guarantee). -/
def dOf (κ : Ctx) (aLines : List String) (c : Commit) : Nat :=
  κ.diffLen ((κ.decode (c.blob.getD [])).getD []) aLines

/-- A revision the diff-mode scan measures: blob present, decodable, digest
differing from the archive digest. -/
def Diffed (κ : Ctx) (aSha : Nat) (c : Commit) : Prop :=
  c.blob.isSome ∧ (κ.decode (c.blob.getD [])).isSome ∧ ¬(aSha = κ.sha (c.blob.getD []))

/-- `Diffed` is decidable, so witnesses can be checked by evaluation. -/
instance (κ : Ctx) (aSha : Nat) (c : Commit) : Decidable (Diffed κ aSha c) := by
  unfold Diffed
  infer_instance

/-- The minimum-tracking fold of source lines 152-156 in isolation: the
candidate pair is replaced only on a strictly smaller diff line count. -/
def keepMin : Commit × Nat → List (Commit × Nat) → Commit × Nat
  | acc, [] => acc
  | (c₀, m₀), (c, d) :: rest => if m₀ > d then keepMin (c, d) rest else keepMin (c₀, m₀) rest

/-- Over a list of measured revisions (diff mode on, all blobs present,
decodable, non-matching) the scan finishes without a match and its
minimum-diff pair is exactly the `keepMin` fold over the per-revision diff
line counts; every present blob is digest-compared. -/
theorem scanCommits_all_diffed (κ : Ctx) (hud : κ.useDiff = true) (aSha : Nat)
    (aLines : List String) (l : List Commit) (hl : ∀ c ∈ l, Diffed κ aSha c) :
    ∀ (counter : Nat) (fm : Option Nat) (acc : Commit × Nat),
      scanCommits κ aSha aLines l counter fm (some acc) =
        .ok ⟨none, fm, some (keepMin acc (l.map (fun c => (c, dOf κ aLines c)))),
          l.map (fun c => c.id)⟩ := by
  induction l with
  | nil => intro counter fm acc; simp [scanCommits, keepMin]
  | cons c l ih =>
    intro counter fm acc
    obtain ⟨hsome, hdec, hne⟩ := hl c (by simp)
    obtain ⟨b, hb⟩ := Option.isSome_iff_exists.mp hsome
    rw [hb] at hdec hne
    simp only [Option.getD_some] at hdec hne
    obtain ⟨lines, hlines⟩ := Option.isSome_iff_exists.mp hdec
    have hdof : dOf κ aLines c = κ.diffLen lines aLines := by
      simp [dOf, hb, hlines]
    obtain ⟨c₀, m₀⟩ := acc
    have hl' : ∀ x ∈ l, Diffed κ aSha x := fun x hx => hl x (by simp [hx])
    simp only [scanCommits, hb, if_neg hne, hud, if_true, hlines]
    by_cases hcmp : m₀ > κ.diffLen lines aLines
    · rw [if_pos hcmp]
      rw [ih hl' (counter + 1) fm (c, κ.diffLen lines aLines)]
      simp only [Except.map, List.map_cons, keepMin, hdof, if_pos hcmp]
    · rw [if_neg hcmp]
      rw [ih hl' (counter + 1) fm (c₀, m₀)]
      simp only [Except.map, List.map_cons, keepMin, hdof, if_neg hcmp]

/-- Characterization of the strict-improvement fold: the result is one of the
seen pairs, its diff count is minimal, and every pair seen strictly before
the result's position has a strictly larger diff count — so among all pairs
attaining the minimum, the first (newest) one encountered is kept. -/
theorem keepMin_spec (l : List (Commit × Nat)) :
    ∀ acc : Commit × Nat,
      keepMin acc l ∈ acc :: l ∧
        (∀ p ∈ acc :: l, (keepMin acc l).2 ≤ p.2) ∧
        ∃ l₁ l₂, acc :: l = l₁ ++ keepMin acc l :: l₂ ∧
          ∀ p ∈ l₁, (keepMin acc l).2 < p.2 := by
  induction l with
  | nil =>
    intro acc
    refine ⟨by simp [keepMin], by simp [keepMin], [], [], by simp [keepMin], by simp⟩
  | cons q l ih =>
    intro acc
    obtain ⟨c₀, m₀⟩ := acc
    obtain ⟨c, d⟩ := q
    by_cases h : m₀ > d
    · have hk : keepMin (c₀, m₀) ((c, d) :: l) = keepMin (c, d) l := by
        simp [keepMin, h]
      obtain ⟨hmem, hmin, l₁, l₂, hsplit, hlt⟩ := ih (c, d)
      rw [hk]
      have hled : (keepMin (c, d) l).2 ≤ d := hmin (c, d) (by simp)
      refine ⟨?_, ?_, (c₀, m₀) :: l₁, l₂, ?_, ?_⟩
      · rcases List.mem_cons.mp hmem with h1 | h1
        · simp [h1]
        · simp [h1]
      · intro p hp
        rcases List.mem_cons.mp hp with h1 | h1
        · rw [h1]; omega
        · exact hmin p h1
      · rw [List.cons_append, ← hsplit]
      · intro p hp
        rcases List.mem_cons.mp hp with h1 | h1
        · rw [h1]; simp only []; omega
        · exact hlt p h1
    · have hk : keepMin (c₀, m₀) ((c, d) :: l) = keepMin (c₀, m₀) l := by
        simp [keepMin, h]
      obtain ⟨hmem, hmin, l₁, l₂, hsplit, hlt⟩ := ih (c₀, m₀)
      rw [hk]
      have hled : (keepMin (c₀, m₀) l).2 ≤ m₀ := hmin (c₀, m₀) (by simp)
      have hmd : m₀ ≤ d := Nat.le_of_not_lt h
      refine ⟨?_, ?_, ?_⟩
      · rcases List.mem_cons.mp hmem with h1 | h1
        · simp [h1]
        · simp [h1]
      · intro p hp
        rcases List.mem_cons.mp hp with h1 | h1
        · rw [h1]; exact hled
        · rcases List.mem_cons.mp h1 with h2 | h2
          · rw [h2]; simp only []; omega
          · exact hmin p (by simp [h2])
      · cases l₁ with
        | nil =>
          simp only [List.nil_append] at hsplit
          refine ⟨[], (c, d) :: l, ?_, by simp⟩
          have hkm : keepMin (c₀, m₀) l = (c₀, m₀) := by
            have := hsplit
            injection this with h1 h2
            exact h1.symm
          rw [hkm]
          simp
        | cons a t =>
          simp only [List.cons_append] at hsplit
          injection hsplit with h1 h2
          refine ⟨(c₀, m₀) :: (c, d) :: t, l₂, ?_, ?_⟩
          · rw [List.cons_append, List.cons_append, ← h2]
          · intro p hp
            have hltm : (keepMin (c₀, m₀) l).2 < m₀ := by
              have := hlt a (by simp)
              rw [← h1] at this
              exact this
            rcases List.mem_cons.mp hp with h3 | h3
            · rw [h3]; simp only []; omega
            · rcases List.mem_cons.mp h3 with h4 | h4
              · rw [h4]; simp only []; omega
              · exact hlt p (by simp [← h1, h4])

/-- C8: in diff mode, for a file without an exact match the closest-revision
selection keeps, among all measured revisions attaining the minimum diff
line count, the first (newest) one encountered in the newest-first scan —
the decomposition below places the chosen pair so that every revision
scanned before it has a strictly larger diff count, which is exactly "a
later revision replaces the candidate only when strictly smaller". -/
theorem C8_ties_keep_newest_minimum (κ : Ctx) (hud : κ.useDiff = true) (aSha : Nat)
    (aLines : List String) (c₁ : Commit) (l : List Commit)
    (hl : ∀ c ∈ c₁ :: l, Diffed κ aSha c) (counter : Nat) (fm : Option Nat) :
    ∃ out, scanCommits κ aSha aLines (c₁ :: l) counter fm none = .ok out ∧
      out.matching = none ∧
      ∃ p l₁ l₂, out.minDiff = some p ∧
        (c₁ :: l).map (fun c => (c, dOf κ aLines c)) = l₁ ++ p :: l₂ ∧
        (∀ q ∈ l₁, p.2 < q.2) ∧
        (∀ q ∈ (c₁ :: l).map (fun c => (c, dOf κ aLines c)), p.2 ≤ q.2) := by
  obtain ⟨hsome, hdec, hne⟩ := hl c₁ (by simp)
  obtain ⟨b, hb⟩ := Option.isSome_iff_exists.mp hsome
  rw [hb] at hdec hne
  simp only [Option.getD_some] at hdec hne
  obtain ⟨lines, hlines⟩ := Option.isSome_iff_exists.mp hdec
  have hdof : dOf κ aLines c₁ = κ.diffLen lines aLines := by simp [dOf, hb, hlines]
  have hl' : ∀ x ∈ l, Diffed κ aSha x := fun x hx => hl x (by simp [hx])
  simp only [scanCommits, hb, if_neg hne, hud, if_true, hlines]
  rw [scanCommits_all_diffed κ hud aSha aLines l hl' (counter + 1) fm
    (c₁, κ.diffLen lines aLines)]
  obtain ⟨hmem, hmin, l₁, l₂, hsplit, hlt⟩ :=
    keepMin_spec (l.map (fun c => (c, dOf κ aLines c))) (c₁, κ.diffLen lines aLines)
  refine ⟨_, rfl, rfl, keepMin (c₁, κ.diffLen lines aLines)
    (l.map (fun c => (c, dOf κ aLines c))), l₁, l₂, rfl, ?_, hlt, ?_⟩
  · rw [List.map_cons, hdof]
    exact hsplit
  · rw [List.map_cons, hdof]
    exact hmin

/-- Witness for C8: three measured revisions with diff counts 4, 2 and 3
(line totals under `diffDemo`); the minimum 2 is attained first at the
middle revision, which is kept. -/
theorem C8_ties_keep_newest_minimum_witness :
    ∃ out, scanCommits ctxDiff 999 []
        ((⟨10, some [1, 2, 3]⟩ : Commit) :: [⟨11, some [4]⟩, ⟨12, some [5, 6]⟩])
        1 none none = .ok out ∧
      out.matching = none ∧
      ∃ p l₁ l₂, out.minDiff = some p ∧
        ((⟨10, some [1, 2, 3]⟩ : Commit) :: [⟨11, some [4]⟩, ⟨12, some [5, 6]⟩]).map
            (fun c => (c, dOf ctxDiff [] c)) = l₁ ++ p :: l₂ ∧
        (∀ q ∈ l₁, p.2 < q.2) ∧
        (∀ q ∈ ((⟨10, some [1, 2, 3]⟩ : Commit) :: [⟨11, some [4]⟩, ⟨12, some [5, 6]⟩]).map
            (fun c => (c, dOf ctxDiff [] c)), p.2 ≤ q.2) :=
  C8_ties_keep_newest_minimum ctxDiff rfl 999 [] ⟨10, some [1, 2, 3]⟩
    [⟨11, some [4]⟩, ⟨12, some [5, 6]⟩] (by decide) 1 none

/-- C1 (code-bug evaluation): with diff mode on, the undecodable archive file
`a.bin` triggers the decode failure of lines 106-111; the source prints
"Skipping the file" but executes `break`, ending the whole comparison loop.
First conjunct: the two-file run records only the decode-error message —
`a.bin` is not classified as diverged-without-revision and the following
file `b.txt` is never processed (no bucket entry, no history query).
Second conjunct: processed alone, `b.txt` would have been classified as
differing without match, showing the run really was cut short. -/
theorem C1_decode_break_aborts_comparison_run :
    compareLoop ctxDiff RunState.init [binFile, txtFile] =
      .ok ⟨none, none, [], [], [.decodeError ["a.bin"]]⟩ ∧
    compareLoop ctxDiff RunState.init [txtFile] =
      .ok ⟨none, some 1, [["b.txt"]], [["b.txt"]],
        [.differingNoMatch ["b.txt"] (some (1, 2))]⟩ := by
  decide

/-- C7 (code-bug evaluation): diff mode on, the file differs from the
repository copy, and no revision yields a computable diff (here an empty
revision list, e.g. an untracked working-tree file): instead of emitting a
plain diverged record, the report f-string of line 166 dereferences
`min_diff_commit.hexsha` with `min_diff_commit = None` and the run aborts. -/
theorem C7_no_diff_candidate_crashes_report :
    processFile ctxDiff RunState.init ⟨["b.txt"], true, false, true, true, [2], [3], []⟩ =
      .error .noneHexsha := by
  decide

/-- C4 counterexample: an archive file byte-identical to its repository copy
but undecodable, with diff mode on: processing it emits the decode-error
message and stops the comparison loop (continuation flag `false`) instead of
the silent `Unchanged` pass-through — the decode of lines 106-111 runs
before the digest comparison of line 113 even for identical files. -/
theorem C4_counterexample :
    (⟨["c.bin"], true, false, true, true, [200], [200], []⟩ : AFile).bytes =
        (⟨["c.bin"], true, false, true, true, [200], [200], []⟩ : AFile).headBytes ∧
      processFile ctxDiff RunState.init
          ⟨["c.bin"], true, false, true, true, [200], [200], []⟩ =
        .ok (⟨none, none, [], [], [.decodeError ["c.bin"]]⟩, false) := by
  decide

/-- C4 amended: an archive file byte-identical to the repository's current
copy is passed over silently — state unchanged (so it joins no report
bucket), continuation flag `true`, and no `iter_commits` history query —
provided the file decodes when diff mode is on (an undecodable identical
file instead triggers the decode-failure break, still without any bucket or
history query).  It is also never a missing file, since its repository copy
exists. -/
theorem C4_unchanged_is_silent_and_queryless (κ : Ctx) (st : RunState) (f : AFile)
    (hfile : f.isFile = true) (hgr : f.gitRelated = false)
    (hex : f.gitExists = true) (hisf : f.gitIsFile = true)
    (heq : f.bytes = f.headBytes)
    (hdec : κ.useDiff = true → (κ.decode f.bytes).isSome) :
    processFile κ st f = .ok (st, true) ∧ f.rel ∉ findMissingFiles [f] := by
  constructor
  · simp only [processFile, hfile, hgr, hex, hisf, Bool.and_self, if_true]
    cases hud : κ.useDiff with
    | false => simp [hud, heq]
    | true =>
      obtain ⟨v, hv⟩ := Option.isSome_iff_exists.mp (hdec hud)
      rw [heq] at hv
      simp [hud, hv, heq]
  · simp [findMissingFiles, hex]

/-- Witness for C4 amended: a decodable identical file under diff mode is
passed over with no state change. -/
theorem C4_unchanged_is_silent_and_queryless_witness :
    processFile ctxDiff RunState.init ⟨["ok.txt"], true, false, true, true, [65], [65], []⟩ =
        .ok (RunState.init, true) ∧
      (⟨["ok.txt"], true, false, true, true, [65], [65], []⟩ : AFile).rel ∉
        findMissingFiles [⟨["ok.txt"], true, false, true, true, [65], [65], []⟩] :=
  C4_unchanged_is_silent_and_queryless ctxDiff RunState.init
    ⟨["ok.txt"], true, false, true, true, [65], [65], []⟩ rfl rfl rfl rfl rfl
    (fun _ => by decide)

/-- Whatever the fuel, the ascent loop stops on some ancestor-or-self of its
starting path (a `take` of it). -/
theorem rootGo_take (ap S : List String) :
    ∀ (fuel : Nat) (p : List String), ∃ k, k ≤ p.length ∧ rootGo ap S fuel p = p.take k := by
  intro fuel
  induction fuel with
  | zero => intro p; exact ⟨p.length, Nat.le_refl _, (List.take_length p).symm⟩
  | succ fuel ih =>
    intro p
    by_cases h1 : p ++ S = ap
    · exact ⟨p.length, Nat.le_refl _, by simp [rootGo, h1, List.take_length]⟩
    · by_cases h2 : p = []
      · subst h2
        exact ⟨0, Nat.le_refl _, by simp [rootGo, h1]⟩
      · obtain ⟨k, hk, hr⟩ := ih p.dropLast
        have hk' : k ≤ p.length - 1 := by
          rw [List.length_dropLast] at hk
          omega
        refine ⟨k, by omega, ?_⟩
        have hstep : rootGo ap S (fuel + 1) p = rootGo ap S fuel p.dropLast := by
          simp [rootGo, h1, h2]
        rw [hstep, hr, List.dropLast_eq_take, List.take_take]
        congr 1
        omega

/-- With enough fuel, the ascent finds the ancestor-or-self that rebuilds the
archive path when the git subfolder is appended. -/
theorem rootGo_finds (ap S : List String) :
    ∀ (fuel : Nat) (p : List String) (k : Nat), p.length < fuel → k ≤ p.length →
      p.take k ++ S = ap → rootGo ap S fuel p = p.take k := by
  intro fuel
  induction fuel with
  | zero => intro p k h; exact absurd h (Nat.not_lt_zero _)
  | succ fuel ih =>
    intro p k hfuel hk htake
    by_cases h1 : p ++ S = ap
    · have hpk : p.take k = p := List.append_cancel_right (htake.trans h1.symm)
      simp [rootGo, h1, hpk]
    · by_cases h2 : p = []
      · subst h2
        simp only [List.take_nil] at htake
        exact absurd htake h1
      · have hklt : k < p.length := by
          rcases Nat.lt_or_ge k p.length with h | h
          · exact h
          · exfalso
            rw [List.take_of_length_le h] at htake
            exact h1 htake
        have hstep : rootGo ap S (fuel + 1) p = rootGo ap S fuel p.dropLast := by
          simp [rootGo, h1, h2]
        have hdl : p.dropLast.take k = p.take k := by
          rw [List.dropLast_eq_take, List.take_take]
          congr 1
          omega
        rw [hstep, ih p.dropLast k (by rw [List.length_dropLast]; omega)
          (by rw [List.length_dropLast]; omega) (by rw [hdl]; exact htake), hdl]

/-- Membership in the ancestor-or-self chain is exactly being a `take` of
the path. -/
theorem ancChain_mem_iff (p A : List String) :
    A ∈ ancChain p ↔ ∃ k, k ≤ p.length ∧ A = p.take k := by
  unfold ancChain
  simp only [List.mem_map, List.mem_range]
  constructor
  · rintro ⟨k, hk, rfl⟩
    exact ⟨p.length - k, by omega, rfl⟩
  · rintro ⟨k, hk, rfl⟩
    refine ⟨p.length - k, by omega, ?_⟩
    congr 1
    omega

/-- If an ancestor-or-self of the archive path rebuilds it under the
subfolder, the root search returns it. -/
theorem findArchiveRoot_found (ap S A : List String)
    (hA : A ∈ ancChain ap) (heq : A ++ S = ap) : findArchiveRoot ap S = .ok A := by
  obtain ⟨k, hk, rfl⟩ := (ancChain_mem_iff ap A).mp hA
  unfold findArchiveRoot
  rw [rootGo_finds ap S (ap.length + 1) ap k (by omega) hk heq, if_pos heq]

/-- If no ancestor-or-self rebuilds the archive path, the root search raises
the RuntimeError of line 238. -/
theorem findArchiveRoot_none (ap S : List String)
    (h : ∀ A ∈ ancChain ap, A ++ S ≠ ap) : findArchiveRoot ap S = .error () := by
  obtain ⟨k, hk, hr⟩ := rootGo_take ap S (ap.length + 1) ap
  unfold findArchiveRoot
  rw [hr, if_neg (h _ ((ancChain_mem_iff ap _).mpr ⟨k, hk, rfl⟩))]

/-- C10: when no ancestor-or-self `A` of the resolved archive path satisfies
`A ++ S = archivePath`, `main` raises the uncaught RuntimeError and aborts
with a failure exit before any comparison or report is produced (the report
is `none`); when such an ancestor exists, the root search selects it — and
it is the unique such element of the chain, hence in particular the nearest
(deepest) one. -/
theorem C10_archive_root_selection (κ : Ctx) (ap S : List String) (files : List AFile) :
    ((∀ A ∈ ancChain ap, A ++ S ≠ ap) →
        mainFull κ true true ap S files = ⟨.failure, none⟩) ∧
      (∀ A ∈ ancChain ap, A ++ S = ap → findArchiveRoot ap S = .ok A ∧
        ∀ B ∈ ancChain ap, B ++ S = ap → B = A) := by
  constructor
  · intro h
    simp [mainFull, findArchiveRoot_none ap S h]
  · intro A hA heq
    refine ⟨findArchiveRoot_found ap S A hA heq, ?_⟩
    intro B hB heqB
    have h2 := findArchiveRoot_found ap S B hB heqB
    rw [findArchiveRoot_found ap S A hA heq] at h2
    exact (Except.ok.inj h2).symm

/-- Witness for C10: archive path `a` with subfolder `z` has no suitable
ancestor, so the run fails with no report; archive path `a/b/c` with
subfolder `c` selects the ancestor `a/b`, uniquely. -/
theorem C10_archive_root_selection_witness :
    mainFull ctxDiff true true ["a"] ["z"] [] = ⟨.failure, none⟩ ∧
      (findArchiveRoot ["a", "b", "c"] ["c"] = .ok ["a", "b"] ∧
        ∀ B ∈ ancChain ["a", "b", "c"], B ++ ["c"] = ["a", "b", "c"] → B = ["a", "b"]) :=
  ⟨(C10_archive_root_selection ctxDiff ["a"] ["z"] []).1 (by decide),
   (C10_archive_root_selection ctxDiff ["a", "b", "c"] ["c"] []).2 ["a", "b"]
     (by decide) (by decide)⟩

/-- C9 counterexample: both fatal-setup situations named by the claim — the
archive path not a directory, and the repository path unresolvable — make
`main` print an error and `return`, so the process terminates with a
SUCCESSFUL exit state, not the claimed non-zero failure state. -/
theorem C9_counterexample :
    mainFull ctxDiff false true ["a"] [] [] = ⟨.success, none⟩ ∧
      mainFull ctxDiff true false ["a"] [] [] = ⟨.success, none⟩ := by
  decide

/-- C9 amended: an unresolvable repository path or a non-directory archive
path ends the run with a successful exit state (error message printed, early
return); and when setup succeeds, the archive root is found and the
comparison loop finishes without an uncaught exception, the run also exits
successfully — whatever the report contents, i.e. even when divergences were
found.  (Failure exits arise only from uncaught exceptions: the archive-root
RuntimeError of C10 or a comparison crash as in C1/C7.) -/
theorem C9_error_paths_exit_successfully (κ : Ctx) (archiveIsDir gitRootFound : Bool)
    (ap S : List String) (files : List AFile) :
    (archiveIsDir = false → (mainFull κ archiveIsDir gitRootFound ap S files).exit = .success) ∧
    (gitRootFound = false → (mainFull κ archiveIsDir gitRootFound ap S files).exit = .success) ∧
    (∀ r st, findArchiveRoot ap S = .ok r → compareLoop κ RunState.init files = .ok st →
      (mainFull κ true true ap S files).exit = .success) := by
  refine ⟨?_, ?_, ?_⟩
  · intro h
    simp [mainFull, h]
  · intro h
    cases archiveIsDir <;> simp [mainFull, h]
  · intro r st h1 h2
    simp [mainFull, h1, h2]

/-- Witness for C9 amended: the bad-archive-path run exits successfully, and
a complete run whose report contains a diverged file also exits
successfully. -/
theorem C9_error_paths_exit_successfully_witness :
    (mainFull ctxDiff false true ["a"] [] []).exit = .success ∧
      (mainFull ctxDiff true true ["a"] [] [txtFile]).exit = .success :=
  ⟨(C9_error_paths_exit_successfully ctxDiff false true ["a"] [] []).1 rfl,
   (C9_error_paths_exit_successfully ctxDiff true true ["a"] [] [txtFile]).2.2 ["a"]
     ⟨none, some 1, [["b.txt"]], [["b.txt"]], [.differingNoMatch ["b.txt"] (some (1, 2))]⟩
     (by decide) (by decide)⟩
